import Mathlib

set_option maxHeartbeats 2000000
set_option maxRecDepth 4096

/-!
Verification of the missio secret-file scanner (`internal/core/scanner.go`).

Strings are modelled as `List Char`; the scanner only deals with ASCII
path data, so Go's Unicode case folding (`strings.ToLower`,
`strings.EqualFold`) is modelled by ASCII lowering.  `filepath.Separator`
is `'/'` (the scanner targets Unix-style paths).

The glob matcher is a direct translation of Go's `path/filepath.Match`
(`scanChunk`, `matchChunk`, `getEsc`), including its ErrBadPattern
reporting, which `matchPathPattern` in the scanner deliberately ignores.
The tree walker is a direct translation of `path/filepath.Walk` / `walk`
specialised to the callback closure in `Scanner.Scan`.
-/

/-- ASCII lowering of a single character: the effect of Go's
`strings.ToLower` on each ASCII character (uppercase letters map to
their lowercase forms, everything else is unchanged). -/
def lowerChar : Char → Char
  | 'A' => 'a' | 'B' => 'b' | 'C' => 'c' | 'D' => 'd' | 'E' => 'e' | 'F' => 'f'
  | 'G' => 'g' | 'H' => 'h' | 'I' => 'i' | 'J' => 'j' | 'K' => 'k' | 'L' => 'l'
  | 'M' => 'm' | 'N' => 'n' | 'O' => 'o' | 'P' => 'p' | 'Q' => 'q' | 'R' => 'r'
  | 'S' => 's' | 'T' => 't' | 'U' => 'u' | 'V' => 'v' | 'W' => 'w' | 'X' => 'x'
  | 'Y' => 'y' | 'Z' => 'z'
  | c => c

/-- Go `strings.ToLower` (on ASCII input). -/
def toLowerStr (s : List Char) : List Char := s.map lowerChar

/-- `startsWith s t` holds when `t` is a leading piece of `s`
(Go `strings.HasPrefix s t`). -/
def startsWith : List Char → List Char → Bool
  | _, [] => true
  | [], _ :: _ => false
  | c :: s, d :: t => c == d && startsWith s t

/-- Go `strings.Contains s sub`: `sub` occurs as a substring of `s`. -/
def strContains (s sub : List Char) : Bool :=
  if startsWith s sub then true
  else
    match s with
    | [] => false
    | _ :: t => strContains t sub

/-- Go `strings.EqualFold` on ASCII input: equality after case folding. -/
def equalFold : List Char → List Char → Bool
  | [], [] => true
  | c :: s, d :: t => (lowerChar c == lowerChar d) && equalFold s t
  | _, _ => false

/-- Go `filepath.Base` (Unix): last element of the path after trailing
separators are removed; "." for the empty path, "/" for all-separators. -/
def filepathBase (path : List Char) : List Char :=
  if path = [] then ['.']
  else
    let p := (path.reverse.dropWhile (fun c => c == '/')).reverse
    if p = [] then ['/']
    else (p.reverse.takeWhile (fun c => !(c == '/'))).reverse

/-- Scanning loop of Go `filepath.Ext` over the reversed path: walk from
the end, stop at a separator, return the suffix from the last dot.
`acc` is the already-scanned suffix (in original order). -/
def extRevAux : List Char → List Char → List Char
  | [], _ => []
  | c :: cs, acc =>
    if c == '/' then []
    else if c == '.' then c :: acc
    else extRevAux cs (c :: acc)

/-- Go `filepath.Ext`: the suffix of the path from the final dot in the
final separator-separated element; empty if there is no dot. -/
def filepathExt (path : List Char) : List Char := extRevAux path.reverse []

/-- The remainder of `path` after its first `'/'` (the
`strings.IndexByte` + reslice step of `matchPathPattern`);
`none` when the path has no separator left. -/
def afterSep : List Char → Option (List Char)
  | [] => none
  | c :: cs => if c == '/' then some cs else afterSep cs

theorem afterSep_length : ∀ l r, afterSep l = some r → r.length < l.length := by
  intro l
  induction l with
  | nil => intro r h; simp [afterSep] at h
  | cons c cs ih =>
    intro r h
    by_cases hc : c == '/'
    · simp only [afterSep, hc, if_pos, Option.some.injEq] at h
      subst h; simp
    · simp only [afterSep, hc, if_neg, Bool.false_eq_true, not_false_iff] at h
      exact Nat.lt_trans (ih r h) (by simp)

theorem afterSep_count : ∀ l r, afterSep l = some r →
    r.count '/' + 1 = l.count '/' := by
  intro l
  induction l with
  | nil => intro r h; simp [afterSep] at h
  | cons c cs ih =>
    intro r h
    by_cases hc : c == '/'
    · simp only [afterSep, hc, if_pos, Option.some.injEq] at h
      subst h
      have : c = '/' := by simpa using hc
      simp [List.count_cons, this]
    · simp only [afterSep, hc, if_neg, Bool.false_eq_true, not_false_iff] at h
      have hcne : ¬ (c = '/') := by simpa using hc
      simp [List.count_cons, hcne, ih r h]

/-! ### Go `path/filepath.Match` -/

/-- Go `filepath.getEsc`: read one (possibly escaped) literal character
of a character class; `ErrBadPattern` (modelled as `.error ()`) on an
empty/ill-formed remainder. -/
def getEsc : List Char → Except Unit (Char × List Char)
  | [] => .error ()
  | c :: cs =>
    if c == '-' || c == ']' then .error ()
    else if c == '\\' then
      match cs with
      | [] => .error ()
      | d :: ds => if ds.isEmpty then .error () else .ok (d, ds)
    else if cs.isEmpty then .error () else .ok (c, cs)

theorem getEsc_length : ∀ l c rest, getEsc l = .ok (c, rest) →
    rest.length < l.length := by
  intro l c rest h
  match l with
  | [] => simp [getEsc] at h
  | a :: as =>
    simp only [getEsc] at h
    split at h
    · simp at h
    · split at h
      · split at h
        · simp at h
        · split at h
          · simp at h
          · simp only [Except.ok.injEq, Prod.mk.injEq] at h
            obtain ⟨-, h2⟩ := h
            subst h2
            simp only [List.length_cons]
            omega
      · split at h
        · simp at h
        · simp only [Except.ok.injEq, Prod.mk.injEq] at h
          obtain ⟨-, h2⟩ := h
          subst h2
          simp only [List.length_cons]
          omega

/-- The range-parsing loop in the character-class case of Go
`filepath.matchChunk`: `r` is the character being matched, `acc` the
running `match` flag, `nrange` the number of ranges parsed so far.
Returns the final `match` flag and the chunk remainder past `']'`. -/
def parseRanges (r : Char) (chunk : List Char) (acc : Bool) (nrange : Nat) :
    Except Unit (Bool × List Char) :=
  if chunk.head? = some ']' ∧ nrange > 0 then
    .ok (acc, chunk.tail)
  else
    match hg : getEsc chunk with
    | .error _ => .error ()
    | .ok (lo, c1) =>
      if c1.head? = some '-' then
        match hg2 : getEsc c1.tail with
        | .error _ => .error ()
        | .ok (hi, c2) =>
          parseRanges r c2 (acc || (decide (lo ≤ r) && decide (r ≤ hi))) (nrange + 1)
      else
        parseRanges r c1 (acc || (decide (lo ≤ r) && decide (r ≤ lo))) (nrange + 1)
termination_by chunk.length
decreasing_by
· have l1 := getEsc_length chunk lo c1 hg
  have l2 := getEsc_length c1.tail hi c2 hg2
  have l3 : c1.tail.length ≤ c1.length := by
    cases c1 <;> simp
  omega
· exact getEsc_length chunk lo c1 hg

theorem parseRanges_length : ∀ L ch r acc n m rest, ch.length ≤ L →
    parseRanges r ch acc n = .ok (m, rest) → rest.length ≤ ch.length := by
  intro L
  induction L with
  | zero =>
    intro ch r acc n m rest hL h
    have hch : ch = [] := List.length_eq_zero.mp (Nat.le_zero.mp hL)
    subst hch
    rw [parseRanges.eq_def] at h
    simp [getEsc] at h
  | succ L ih =>
    intro ch r acc n m rest hL h
    rw [parseRanges.eq_def] at h
    split at h
    · simp only [Except.ok.injEq, Prod.mk.injEq] at h
      obtain ⟨-, h2⟩ := h
      subst h2
      cases ch <;> simp
    · split at h
      · simp at h
      · rename_i lo c1 hg
        split at h
        · split at h
          · simp at h
          · rename_i hi c2 hg2
            have e1 := getEsc_length ch lo c1 hg
            have e2 := getEsc_length c1.tail hi c2 hg2
            have e3 : c1.tail.length ≤ c1.length := by cases c1 <;> simp
            have r1 := ih c2 r _ _ m rest (by omega) h
            omega
        · have e1 := getEsc_length ch lo c1 hg
          have r1 := ih c1 r _ _ m rest (by omega) h
          omega

/-- Go `filepath.matchChunk`: match `chunk` against the beginning of `s`,
carrying Go's `failed` flag (set once a definite mismatch is seen, while
the rest of the chunk is still validated).  Returns the remainder of `s`
and the ok flag; `.error ()` models ErrBadPattern, at which sites Go's
code always also returns ok = false.  Where the code below reads from
`s` under `failed1 = false`, `s` is necessarily nonempty (the top of the
loop sets `failed` when `s` is exhausted), so the `headD` defaults are
unreachable. -/
def matchChunk (chunk s : List Char) (failed : Bool) :
    Except Unit (List Char × Bool) :=
  match chunk with
  | [] => .ok (if failed then [] else s, !failed)
  | c :: chunk1 =>
    let failed1 := failed || s.isEmpty
    if c == '[' then
      let r := if failed1 then Char.ofNat 0 else s.headD (Char.ofNat 0)
      let s1 := if failed1 then s else s.tail
      let negated := decide (chunk1.head? = some '^')
      let chunk2 := if chunk1.head? = some '^' then chunk1.tail else chunk1
      match hp : parseRanges r chunk2 false 0 with
      | .error _ => .error ()
      | .ok (m, chunk3) =>
        matchChunk chunk3 s1 (failed1 || (m == negated))
    else if c == '?' then
      if failed1 then matchChunk chunk1 s failed1
      else matchChunk chunk1 s.tail (decide (s.headD ' ' = '/'))
    else if c == '\\' then
      match chunk1 with
      | [] => .error ()
      | d :: chunk2 =>
        if failed1 then matchChunk chunk2 s failed1
        else matchChunk chunk2 s.tail (!(d == s.headD d))
    else
      if failed1 then matchChunk chunk1 s failed1
      else matchChunk chunk1 s.tail (!(c == s.headD c))
termination_by chunk.length
decreasing_by
· have e1 := parseRanges_length chunk2.length chunk2 r false 0 m chunk3
    (le_refl _) hp
  simp only [chunk2] at e1
  simp only [List.length_cons]
  split at e1
  · simp only [List.length_tail] at e1
    omega
  · omega
all_goals simp only [List.length_cons]
all_goals omega

/-- Leading-star consumption at the top of Go `filepath.scanChunk`. -/
def scanStars : List Char → Bool × List Char
  | [] => (false, [])
  | c :: cs => if c == '*' then (true, (scanStars cs).2) else (false, c :: cs)

theorem scanStars_le : ∀ l, (scanStars l).2.length ≤ l.length := by
  intro l
  induction l with
  | nil => simp [scanStars]
  | cons c cs ih =>
    by_cases hc : c == '*' <;> simp [scanStars, hc] <;> omega

theorem scanStars_true_lt : ∀ l, (scanStars l).1 = true →
    (scanStars l).2.length < l.length := by
  intro l h
  match l with
  | [] => simp [scanStars] at h
  | c :: cs =>
    by_cases hc : c == '*'
    · simp only [scanStars, hc, if_pos, List.length_cons]
      exact Nat.lt_succ_of_le (scanStars_le cs)
    · simp [scanStars, hc] at h

theorem scanStars_false : ∀ l, (scanStars l).1 = false → (scanStars l).2 = l := by
  intro l h
  match l with
  | [] => simp [scanStars]
  | c :: cs =>
    by_cases hc : c == '*'
    · simp [scanStars, hc] at h
    · simp [scanStars, hc]

theorem scanStars_false_head : ∀ c cs, (scanStars (c :: cs)).1 = false →
    ¬(c = '*') := by
  intro c cs h hc
  subst hc
  simp [scanStars] at h

/-- The chunk-scanning loop of Go `filepath.scanChunk`: split the pattern
before the next top-level `'*'`, tracking `[...]` ranges (`inrange`) and
backslash escapes (the switch on the scanned character is rendered as a
pattern match; an escape consumes the following character too, and a
lone trailing backslash ends the scan). -/
def chunkSplit : List Char → Bool → List Char × List Char
  | [], _ => ([], [])
  | '\\' :: d :: ds, inrange =>
    let (ch, rest) := chunkSplit ds inrange
    ('\\' :: d :: ch, rest)
  | '\\' :: [], _ => (['\\'], [])
  | '[' :: cs, _ =>
    let (ch, rest) := chunkSplit cs true
    ('[' :: ch, rest)
  | ']' :: cs, _ =>
    let (ch, rest) := chunkSplit cs false
    (']' :: ch, rest)
  | c :: cs, inrange =>
    if c == '*' && !inrange then ([], c :: cs)
    else
      let (ch, rest) := chunkSplit cs inrange
      (c :: ch, rest)

theorem chunkSplit_length : ∀ l b,
    (chunkSplit l b).1.length + (chunkSplit l b).2.length = l.length := by
  intro l b
  induction l, b using chunkSplit.induct <;> simp_all [chunkSplit] <;>
    first
    | omega
    | (split_ifs <;> simp_all <;> omega)

theorem chunkSplit_ne : ∀ c cs b, ¬(c = '*') →
    (chunkSplit (c :: cs) b).1 ≠ [] := by
  intro c cs b hc
  rw [chunkSplit.eq_def]
  split <;> simp_all

/-- Go `filepath.scanChunk`: strip leading stars, then split off the
chunk before the next top-level `'*'`. -/
def scanChunk (pattern : List Char) : Bool × List Char × List Char :=
  let (star, p) := scanStars pattern
  let (chunk, rest) := chunkSplit p false
  (star, chunk, rest)

theorem scanChunk_cons_length : ∀ c cs star chunk rest,
    scanChunk (c :: cs) = (star, chunk, rest) →
    rest.length < (c :: cs).length := by
  intro c cs star chunk rest h
  simp only [scanChunk, Prod.mk.injEq] at h
  obtain ⟨h1, h2, h3⟩ := h
  subst h3
  have hsum := chunkSplit_length (scanStars (c :: cs)).2 false
  cases hstar : (scanStars (c :: cs)).1 with
  | true =>
    have hlt := scanStars_true_lt (c :: cs) hstar
    omega
  | false =>
    have heq := scanStars_false (c :: cs) hstar
    have hhd := scanStars_false_head c cs hstar
    have hne := chunkSplit_ne c cs false hhd
    have hpos : 0 < (chunkSplit (c :: cs) false).1.length :=
      List.length_pos.mpr hne
    rw [heq] at hsum ⊢
    omega

/-- Outcome of the star-retry loop inside Go `filepath.Match`. -/
inductive StarRes where
  | found (t : List Char)
  | nomatch
  | badPattern
deriving DecidableEq

/-- The star-retry loop inside Go `filepath.Match`: look for a match of
`chunk` that skips one more character of `name` each time, never
skipping a separator.  `restPat` is the pattern remaining after the
chunk (Go's reassigned `pattern`). -/
def starLoop (chunk restPat name : List Char) : StarRes :=
  match name with
  | [] => .nomatch
  | c :: name1 =>
    if c == '/' then .nomatch
    else
      match matchChunk chunk name1 false with
      | .error _ => .badPattern
      | .ok (t, ok) =>
        if ok then
          if !t.isEmpty && restPat.isEmpty then starLoop chunk restPat name1
          else .found t
        else starLoop chunk restPat name1

/-- The well-formedness sweep Go `filepath.Match` performs on the rest of
the pattern before returning a definite false (`true` = ErrBadPattern
found). -/
def checkWF (pattern : List Char) : Bool :=
  match hp : pattern with
  | [] => false
  | _ :: _ =>
    match hs : scanChunk pattern with
    | (_, chunk, rest) =>
      match matchChunk chunk [] false with
      | .error _ => true
      | .ok _ => checkWF rest
termination_by pattern.length
decreasing_by
rw [hp] at hs
exact scanChunk_cons_length _ _ _ _ _ hs

/-- Go `filepath.Match` with `Separator = '/'`, as `(matched, err)`;
`err = true` models a non-nil ErrBadPattern. -/
def goMatch (pattern name : List Char) : Bool × Bool :=
  match hp : pattern with
  | [] => (name.isEmpty, false)
  | _ :: _ =>
    match hs : scanChunk pattern with
    | (star, chunk, rest) =>
      if star && chunk.isEmpty then (!(strContains name ['/']), false)
      else
        match matchChunk chunk name false with
        | .error _ => (false, true)
        | .ok (t, ok) =>
          if ok && (t.isEmpty || !rest.isEmpty) then goMatch rest t
          else if star then
            match starLoop chunk rest name with
            | .found t2 => goMatch rest t2
            | .badPattern => (false, true)
            | .nomatch => (false, checkWF rest)
          else (false, checkWF rest)
termination_by pattern.length
decreasing_by
all_goals rw [hp] at hs
all_goals exact scanChunk_cons_length _ _ _ _ _ hs

/-- `matchPathPattern` from scanner.go: try `filepath.Match` on the path
and on every suffix subpath obtained by stripping the leading segment
through the first separator; the Match error is discarded
(`matched, _ := filepath.Match(pattern, path)`). -/
def matchPathPattern (pattern path : List Char) : Bool :=
  if (goMatch pattern path).1 then true
  else
    match h : afterSep path with
    | none => false
    | some rest => matchPathPattern pattern rest
termination_by path.length
decreasing_by exact afterSep_length path rest h

/-! ### The scanner -/

/-- One family of pattern lists.  `config.go` is not under `src/`; the
field shape follows its use in `scanner.go` (`s.config.Exclude.Names`,
`.Extensions`, `.Paths` and the `Include` counterparts) and the spec's
ClassificationRules. -/
structure RuleSet where
  Names : List (List Char)
  Extensions : List (List Char)
  Paths : List (List Char)
deriving DecidableEq

/-- The resolved classification rule set held by the Scanner. -/
structure Config where
  Exclude : RuleSet
  Include : RuleSet
deriving DecidableEq

/-- `excludeDirs` from scanner.go: directory base names pruned during
the walk. -/
def excludeDirs : List (List Char) :=
  [".git".toList, "node_modules".toList, "vendor".toList, "tmp".toList,
   "cache".toList, "log".toList, "logs".toList, "coverage".toList,
   "dist".toList, "build".toList, ".bundle".toList, ".gradle".toList,
   ".idea".toList, ".vscode".toList, "__pycache__".toList,
   ".pytest_cache".toList]

/-- `Scanner.isSecretFile` from scanner.go. -/
def isSecretFile (cfg : Config) (relPath : List Char) : Bool :=
  let filename := filepathBase relPath
  let ext := filepathExt relPath
  let lowerFilename := toLowerStr filename
  let lowerPath := toLowerStr relPath
  if cfg.Exclude.Names.any (fun pat => strContains lowerFilename (toLowerStr pat)) then
    false
  else if cfg.Exclude.Extensions.any (fun pat => equalFold ext pat) then
    false
  else if cfg.Exclude.Paths.any (fun pat => matchPathPattern pat lowerPath) then
    false
  else if cfg.Include.Names.any (fun pat => strContains lowerFilename (toLowerStr pat)) then
    true
  else if cfg.Include.Extensions.any (fun pat => equalFold ext pat) then
    true
  else if cfg.Include.Paths.any (fun pat => matchPathPattern pat lowerPath) then
    true
  else
    false

/-- The exclude-family test of `isSecretFile` (first three loops),
as one predicate, for stating the precedence property. -/
def excludeMatch (cfg : Config) (relPath : List Char) : Bool :=
  cfg.Exclude.Names.any
    (fun pat => strContains (toLowerStr (filepathBase relPath)) (toLowerStr pat)) ||
  cfg.Exclude.Extensions.any (fun pat => equalFold (filepathExt relPath) pat) ||
  cfg.Exclude.Paths.any (fun pat => matchPathPattern pat (toLowerStr relPath))

/-- The include-family test of `isSecretFile` (last three loops). -/
def includeMatch (cfg : Config) (relPath : List Char) : Bool :=
  cfg.Include.Names.any
    (fun pat => strContains (toLowerStr (filepathBase relPath)) (toLowerStr pat)) ||
  cfg.Include.Extensions.any (fun pat => equalFold (filepathExt relPath) pat) ||
  cfg.Include.Paths.any (fun pat => matchPathPattern pat (toLowerStr relPath))

/-! ### The tree walker (`filepath.Walk` + the `Scan` callback) -/

mutual
/-- In-memory model of the scanned directory tree.  A `baddir` is a
directory whose listing (`readDirNames`) fails with a filesystem error;
`lstat` of entries is assumed to succeed. -/
inductive FSTree where
  | file (name : List Char) : FSTree
  | dir (name : List Char) (children : FSList) : FSTree
  | baddir (name : List Char) : FSTree
deriving DecidableEq

inductive FSList where
  | nil : FSList
  | cons (hd : FSTree) (tl : FSList) : FSList
deriving DecidableEq
end

/-- `info.Name()`: the entry's base name. -/
def FSTree.name : FSTree → List Char
  | .file n => n
  | .dir n _ => n
  | .baddir n => n

/-- `info.IsDir()`. -/
def FSTree.isDir : FSTree → Bool
  | .file _ => false
  | .dir _ _ => true
  | .baddir _ => true

/-- Modelled from the spec: the Logger progress sink (`logger.go` is not
under `src/`).  `LogProgress` ↦ `visit`, `IncrementScanned` ↦
`fileScanned`, `LogSummary` ↦ `summary`. -/
inductive Ev where
  | visit (path : List Char)
  | fileScanned
  | summary (files : List (List Char))
deriving DecidableEq

/-- The walk's mutable state: the `files` slice accumulated by the Scan
closure, and the events emitted to the progress sink, oldest first. -/
structure ScanState where
  files : List (List Char)
  events : List Ev
deriving DecidableEq

/-- Result of Go `filepath.walk` on a subtree: `nil`, `filepath.SkipDir`,
or a filesystem error (carrying the offending path). -/
inductive WRes where
  | ok
  | skipDir
  | fsErr (path : List Char)
deriving DecidableEq

/-- The callback closure passed to `filepath.Walk` in `Scanner.Scan`.
`path` is the walked path, `name` is `info.Name()`, `rel` is
`filepath.Rel(s.rootDir, path)`, and `fsError` the error argument. -/
def walkFn (cfg : Config) (path name rel : List Char) (isDir : Bool)
    (fsError : Option (List Char)) (st : ScanState) : ScanState × WRes :=
  match fsError with
  | some p => (st, .fsErr p)
  | none =>
    if isDir then
      if excludeDirs.any (fun d => name == d) then (st, .skipDir)
      else ({ st with events := st.events ++ [.visit path] }, .ok)
    else
      let st1 := { st with events := st.events ++ [.fileScanned, .visit path] }
      if isSecretFile cfg rel then
        ({ st1 with files := st1.files ++ [rel] }, .ok)
      else (st1, .ok)

mutual
/-- Go `filepath.walk` specialised to the Scan callback.  `path`/`rel`
are the walked path and its root-relative form (`filepath.Rel`, "." for
the root itself).  Children are visited in list order (`readDirNames`
returns sorted names; the model takes the child list as already in that
order).  For a `baddir`, `readDirNames` fails and the error is handed to
the callback, which returns it. -/
def walkT (cfg : Config) (t : FSTree) (path rel : List Char)
    (st : ScanState) : ScanState × WRes :=
  match t with
  | .file n => walkFn cfg path n rel false none st
  | .baddir n => walkFn cfg path n rel true (some path) st
  | .dir n children =>
    match walkFn cfg path n rel true none st with
    | (st1, .ok) => walkChildren cfg children path rel st1
    | (st1, r) => (st1, r)

/-- The child loop of Go `filepath.walk`: `SkipDir` from a directory
child is swallowed, any other non-nil result aborts the loop. -/
def walkChildren (cfg : Config) (ts : FSList) (parentPath parentRel : List Char)
    (st : ScanState) : ScanState × WRes :=
  match ts with
  | .nil => (st, .ok)
  | .cons c rest =>
    let childPath := parentPath ++ '/' :: c.name
    let childRel := if parentRel = ['.'] then c.name else parentRel ++ '/' :: c.name
    match hw : walkT cfg c childPath childRel st with
    | (st1, .fsErr p) => (st1, .fsErr p)
    | (st1, .skipDir) =>
      if c.isDir then walkChildren cfg rest parentPath parentRel st1
      else (st1, .skipDir)
    | (st1, .ok) => walkChildren cfg rest parentPath parentRel st1
end

/-- `Scanner.Scan` via `filepath.Walk`: the root tree is walked under
the path given by its own name; `filepath.Rel(root, root) = "."`.
Returns (error, files, events): on a traversal error Scan returns
`nil, err`; otherwise (`filepath.Walk` turns a root-level SkipDir into
nil) it logs the summary and returns the files. -/
def Scan (cfg : Config) (t : FSTree) :
    Option (List Char) × List (List Char) × List Ev :=
  match walkT cfg t t.name ['.'] ⟨[], []⟩ with
  | (st, .fsErr p) => (some p, [], st.events)
  | (st, _) => (none, st.files, st.events ++ [.summary st.files])

/-! ### Classification lemmas -/

/-- The early-return loops of `isSecretFile` amount to: excluded iff the
exclude family matches, otherwise secret iff the include family matches. -/
theorem isSecretFile_eq : ∀ cfg p,
    isSecretFile cfg p = (!excludeMatch cfg p && includeMatch cfg p) := by
  intro cfg p
  simp only [isSecretFile, excludeMatch, includeMatch]
  split_ifs with h1 h2 h3 h4 h5 h6 <;> simp_all

/-- `strings.Contains s ""` is true for every `s`. -/
theorem strContains_nil : ∀ s, strContains s [] = true := by
  intro s
  cases s <;> simp [strContains, startsWith]

/-- The Scan callback emits no summary event and, under a classifier
that rejects everything, appends no file. -/
theorem walkFn_inv : ∀ cfg path name rel isDir fsError st,
    (∀ xs, Ev.summary xs ∈ (walkFn cfg path name rel isDir fsError st).1.events →
      Ev.summary xs ∈ st.events) ∧
    ((∀ x, isSecretFile cfg x = false) →
      (walkFn cfg path name rel isDir fsError st).1.files = st.files) := by
  intro cfg path name rel isDir fsError st
  cases fsError with
  | some p => simp [walkFn]
  | none =>
    simp only [walkFn]
    split_ifs <;>
      (constructor
       · intro xs h
         simp_all
       · intro hall
         simp_all)

mutual
/-- `walk` emits no summary event and, under a classifier that rejects
everything, accumulates no file. -/
theorem walkT_inv (cfg : Config) (t : FSTree) : ∀ path rel st,
    (∀ xs, Ev.summary xs ∈ (walkT cfg t path rel st).1.events →
      Ev.summary xs ∈ st.events) ∧
    ((∀ x, isSecretFile cfg x = false) →
      (walkT cfg t path rel st).1.files = st.files) := by
  intro path rel st
  cases t with
  | file n => exact walkFn_inv cfg path n rel false none st
  | baddir n => exact walkFn_inv cfg path n rel true (some path) st
  | dir n children =>
    have hfn := walkFn_inv cfg path n rel true none st
    have hch := walkChildren_inv cfg children
    simp only [walkT]
    cases hw : walkFn cfg path n rel true none st with
    | mk st1 r =>
      rw [hw] at hfn
      cases r with
      | ok =>
        simp only
        constructor
        · intro xs h
          exact hfn.1 xs ((hch path rel st1).1 xs h)
        · intro hall
          rw [(hch path rel st1).2 hall]
          exact hfn.2 hall
      | skipDir => exact hfn
      | fsErr p => exact hfn

/-- The child loop of `walk` emits no summary event and, under a
classifier that rejects everything, accumulates no file. -/
theorem walkChildren_inv (cfg : Config) (ts : FSList) : ∀ pp pr st,
    (∀ xs, Ev.summary xs ∈ (walkChildren cfg ts pp pr st).1.events →
      Ev.summary xs ∈ st.events) ∧
    ((∀ x, isSecretFile cfg x = false) →
      (walkChildren cfg ts pp pr st).1.files = st.files) := by
  intro pp pr st
  cases ts with
  | nil => simp [walkChildren]
  | cons c rest =>
    have hc := walkT_inv cfg c (pp ++ '/' :: c.name)
      (if pr = ['.'] then c.name else pr ++ '/' :: c.name) st
    have hrest := walkChildren_inv cfg rest
    simp only [walkChildren]
    cases hw : walkT cfg c (pp ++ '/' :: c.name)
      (if pr = ['.'] then c.name else pr ++ '/' :: c.name) st with
    | mk st1 r =>
      rw [hw] at hc
      cases r with
      | ok =>
        simp only
        constructor
        · intro xs h
          exact hc.1 xs ((hrest pp pr st1).1 xs h)
        · intro hall
          rw [(hrest pp pr st1).2 hall]
          exact hc.2 hall
      | skipDir =>
        by_cases hd : c.isDir = true
        · simp only [hd, if_pos]
          constructor
          · intro xs h
            exact hc.1 xs ((hrest pp pr st1).1 xs h)
          · intro hall
            rw [(hrest pp pr st1).2 hall]
            exact hc.2 hall
        · simp only [hd, if_neg]
          exact hc
      | fsErr p => exact hc
end

/-- An empty ExcludeNames entry excludes every file: `strings.Contains`
with an empty pattern always holds. -/
theorem isSecretFile_empty_exclude : ∀ cfg p,
    [] ∈ cfg.Exclude.Names → isSecretFile cfg p = false := by
  intro cfg p hmem
  have hany : cfg.Exclude.Names.any
      (fun pat => strContains (toLowerStr (filepathBase p)) (toLowerStr pat)) = true :=
    List.any_eq_true.mpr ⟨[], hmem, by simp [toLowerStr, strContains_nil]⟩
  simp [isSecretFile, hany]

/-! ### Claims -/

/-- C1: `isSecretFile` evaluates the exclude family strictly before the
include family: a match in ExcludeNames, ExcludeExtensions or
ExcludePaths forces NOT-SECRET even when an include list also matches;
the include family decides exactly when no exclude list matched; and
with no match in either family the result is NOT-SECRET.  All three
facts are the equation below. -/
theorem C1_exclude_precedence : ∀ cfg p,
    isSecretFile cfg p = (!excludeMatch cfg p && includeMatch cfg p) :=
  isSecretFile_eq

/-- C9: name matching is substring containment on the folded filename,
so an empty-string pattern matches every filename: an empty ExcludeNames
entry forces every file NOT-SECRET and an empty scan result on every
tree; an empty IncludeNames entry makes every file that no exclude list
matches SECRET. -/
theorem C9_empty_name_pattern :
    (∀ cfg p, [] ∈ cfg.Exclude.Names → isSecretFile cfg p = false) ∧
    (∀ cfg t, [] ∈ cfg.Exclude.Names → (Scan cfg t).2.1 = []) ∧
    (∀ cfg p, [] ∈ cfg.Include.Names → excludeMatch cfg p = false →
      isSecretFile cfg p = true) := by
  refine ⟨isSecretFile_empty_exclude, ?_, ?_⟩
  · intro cfg t hmem
    have hall : ∀ x, isSecretFile cfg x = false :=
      fun x => isSecretFile_empty_exclude cfg x hmem
    simp only [Scan]
    cases hw : walkT cfg t t.name ['.'] ⟨[], []⟩ with
    | mk st r =>
      have hfiles : st.files = [] := by
        have h2 := (walkT_inv cfg t t.name ['.'] ⟨[], []⟩).2 hall
        rw [hw] at h2
        simpa using h2
      cases r <;> simp [hfiles]
  · intro cfg p hmem hex
    have hany : cfg.Include.Names.any
        (fun pat => strContains (toLowerStr (filepathBase p)) (toLowerStr pat)) = true :=
      List.any_eq_true.mpr ⟨[], hmem, by simp [toLowerStr, strContains_nil]⟩
    rw [isSecretFile_eq, hex]
    simp [includeMatch, hany]

/-- Witness for C9 at concrete inputs. -/
theorem C9_empty_name_pattern_witness :
    ([] ∈ (⟨⟨[[]], [], []⟩, ⟨[], [], []⟩⟩ : Config).Exclude.Names ∧
      isSecretFile ⟨⟨[[]], [], []⟩, ⟨[], [], []⟩⟩ "id_rsa".toList = false) ∧
    ((Scan ⟨⟨[[]], [], []⟩, ⟨[], [], []⟩⟩
        (.dir "r".toList (.cons (.file "id_rsa".toList) .nil))).2.1 = []) ∧
    ([] ∈ (⟨⟨[], [], []⟩, ⟨[[]], [], []⟩⟩ : Config).Include.Names ∧
      excludeMatch ⟨⟨[], [], []⟩, ⟨[[]], [], []⟩⟩ "readme.md".toList = false ∧
      isSecretFile ⟨⟨[], [], []⟩, ⟨[[]], [], []⟩⟩ "readme.md".toList = true) :=
  ⟨⟨by decide, C9_empty_name_pattern.1 _ _ (by decide)⟩,
   C9_empty_name_pattern.2.1 _ _ (by decide),
   by decide, by decide,
   C9_empty_name_pattern.2.2 _ _ (by decide) (by decide)⟩

/-- A name in the exclusion list makes the callback's exclusion loop hit. -/
theorem excludeDirs_any : ∀ n, n ∈ excludeDirs →
    excludeDirs.any (fun d => n == d) = true := by
  intro n hmem
  exact List.any_eq_true.mpr ⟨n, hmem, by simp⟩

/-- C3 (amended): the exclusion check runs for every visited directory
including the root itself (`filepath.Walk` invokes the callback on the
root, whose `info.Name()` is its base name), so a root whose base name
is in the exclusion set is pruned at once: Scan returns no error and no
files, scans nothing, and only emits the empty summary. -/
theorem C3_root_excluded : ∀ cfg n cs, n ∈ excludeDirs →
    Scan cfg (.dir n cs) = (none, [], [Ev.summary []]) := by
  intro cfg n cs hmem
  have hany := excludeDirs_any n hmem
  simp [Scan, walkT, walkFn, FSTree.name, hany]

/-- Counterexample to C3 as stated: a root literally named "tmp" is NOT
scanned; its `.env` child, though classified secret by the rules, is
neither visited nor reported. -/
theorem C3_root_excluded_counterexample :
    Scan ⟨⟨[], [], []⟩, ⟨[".env".toList], [], []⟩⟩
        (.dir "tmp".toList (.cons (.file ".env".toList) .nil)) =
      (none, [], [Ev.summary []]) ∧
    isSecretFile ⟨⟨[], [], []⟩, ⟨[".env".toList], [], []⟩⟩ ".env".toList = true := by
  constructor <;> decide

/-- Witness for C3 (amended) at a concrete root named "tmp". -/
theorem C3_root_excluded_witness :
    "tmp".toList ∈ excludeDirs ∧
    Scan ⟨⟨[], [], []⟩, ⟨[".env".toList], [], []⟩⟩ (.dir "tmp".toList .nil) =
      (none, [], [Ev.summary []]) :=
  ⟨by decide, C3_root_excluded _ _ _ (by decide)⟩

/-- The callback returns SkipDir for a directory whose base name is in
the exclusion list. -/
theorem walkFn_excluded : ∀ cfg path n rel st, n ∈ excludeDirs →
    walkFn cfg path n rel true none st = (st, .skipDir) := by
  intro cfg path n rel st hmem
  simp [walkFn, excludeDirs_any n hmem]

/-- C4: directory pruning is exact base-name equality: a directory named
"node_modules" is pruned wherever it occurs, with its whole subtree
unvisited, unreported and unclassified (the walk returns the state
untouched), while "node_modules_backup" is not pruned and its contents
are scanned and classified normally. -/
theorem C4_exact_name_pruning :
    (∀ cfg cs path rel st,
      walkT cfg (.dir "node_modules".toList cs) path rel st = (st, .skipDir)) ∧
    Scan ⟨⟨[], [], []⟩, ⟨["id_rsa".toList], [], []⟩⟩
        (.dir "r".toList
          (.cons (.dir "a".toList
            (.cons (.dir "node_modules".toList (.cons (.file "id_rsa".toList) .nil)) .nil))
          (.cons (.dir "node_modules_backup".toList (.cons (.file "id_rsa".toList) .nil))
            .nil))) =
      (none, ["node_modules_backup/id_rsa".toList],
        [Ev.visit "r".toList, Ev.visit "r/a".toList,
         Ev.visit "r/node_modules_backup".toList, Ev.fileScanned,
         Ev.visit "r/node_modules_backup/id_rsa".toList,
         Ev.summary ["node_modules_backup/id_rsa".toList]]) := by
  constructor
  · intro cfg cs path rel st
    simp only [walkT]
    rw [walkFn_excluded cfg path _ rel st (by decide)]
  · decide

/-- C6: a traversal error aborts Scan: whenever Scan reports an error it
returns an empty match list and never emits the summary event, and a
non-empty match list implies the walk finished without error; at the
concrete erroring tree, the match found before the error is discarded
and the offending path is returned. -/
theorem C6_abort_on_error :
    (∀ cfg t, (Scan cfg t).1 ≠ none →
      (Scan cfg t).2.1 = [] ∧ ∀ xs, Ev.summary xs ∉ (Scan cfg t).2.2) ∧
    (∀ cfg t, (Scan cfg t).2.1 ≠ [] → (Scan cfg t).1 = none) ∧
    Scan ⟨⟨[], [], []⟩, ⟨[".env".toList], [], []⟩⟩
        (.dir "r".toList (.cons (.file ".env".toList)
          (.cons (.baddir "x".toList) .nil))) =
      (some "r/x".toList, [],
        [Ev.visit "r".toList, Ev.fileScanned, Ev.visit "r/.env".toList]) := by
  refine ⟨?_, ?_, by decide⟩
  · intro cfg t h
    simp only [Scan] at h ⊢
    cases hw : walkT cfg t t.name ['.'] ⟨[], []⟩ with
    | mk st r =>
      rw [hw] at h
      cases r with
      | ok => simp at h
      | skipDir => simp at h
      | fsErr p =>
        refine ⟨rfl, ?_⟩
        intro xs hmem
        have h1 := (walkT_inv cfg t t.name ['.'] ⟨[], []⟩).1 xs
        rw [hw] at h1
        have h2 := h1 (by simpa using hmem)
        simp at h2
  · intro cfg t h
    simp only [Scan] at h ⊢
    cases hw : walkT cfg t t.name ['.'] ⟨[], []⟩ with
    | mk st r =>
      rw [hw] at h
      cases r <;> simp_all

/-- Witness for C6 at a concrete tree with an unreadable subdirectory. -/
theorem C6_abort_on_error_witness :
    (Scan ⟨⟨[], [], []⟩, ⟨[".env".toList], [], []⟩⟩
        (.dir "r".toList (.cons (.file ".env".toList)
          (.cons (.baddir "x".toList) .nil)))).1 ≠ none ∧
    ((Scan ⟨⟨[], [], []⟩, ⟨[".env".toList], [], []⟩⟩
        (.dir "r".toList (.cons (.file ".env".toList)
          (.cons (.baddir "x".toList) .nil)))).2.1 = [] ∧
      ∀ xs, Ev.summary xs ∉
        (Scan ⟨⟨[], [], []⟩, ⟨[".env".toList], [], []⟩⟩
          (.dir "r".toList (.cons (.file ".env".toList)
            (.cons (.baddir "x".toList) .nil)))).2.2) :=
  ⟨by decide, C6_abort_on_error.1 _ _ (by decide)⟩

/-- The successive suffix subpaths `matchPathPattern` tries: the path
itself, then everything after each stripped leading segment. -/
def strips (path : List Char) : List (List Char) :=
  match h : afterSep path with
  | none => [path]
  | some r => path :: strips r
termination_by path.length
decreasing_by exact afterSep_length path r h

theorem matchPathPattern_eq_any : ∀ L pat path, path.length ≤ L →
    matchPathPattern pat path = (strips path).any (fun s => (goMatch pat s).1) := by
  intro L
  induction L with
  | zero =>
    intro pat path hL
    have hp : path = [] := List.length_eq_zero.mp (Nat.le_zero.mp hL)
    subst hp
    rw [matchPathPattern.eq_def, strips.eq_def]
    cases hm : (goMatch pat []).1 <;> simp [afterSep, hm]
  | succ L ih =>
    intro pat path hL
    rw [matchPathPattern.eq_def, strips.eq_def]
    cases hm : (goMatch pat path).1 with
    | true =>
      cases ha : afterSep path <;> simp [hm]
    | false =>
      cases ha : afterSep path with
      | none => simp [hm]
      | some r =>
        have hr := afterSep_length path r ha
        simp only [hm, Bool.false_eq_true, if_neg, not_false_iff,
          List.any_cons, Bool.false_or]
        exact ih pat r (by omega)

theorem afterSep_none : ∀ l, afterSep l = none → l.count '/' = 0 := by
  intro l
  induction l with
  | nil => intro h; simp
  | cons c cs ih =>
    intro h
    by_cases hc : c == '/'
    · simp [afterSep, hc] at h
    · simp only [afterSep, hc, Bool.false_eq_true, if_neg, not_false_iff] at h
      have hcne : ¬ (c = '/') := by simpa using hc
      simp [List.count_cons, hcne, ih h]

theorem strips_length : ∀ L path, path.length ≤ L →
    (strips path).length = path.count '/' + 1 := by
  intro L
  induction L with
  | zero =>
    intro path hL
    have hp : path = [] := List.length_eq_zero.mp (Nat.le_zero.mp hL)
    subst hp
    rw [strips.eq_def]
    simp [afterSep]
  | succ L ih =>
    intro path hL
    rw [strips.eq_def]
    cases ha : afterSep path with
    | none => simp [afterSep_none path ha]
    | some r =>
      have hr := afterSep_length path r ha
      have hc := afterSep_count path r ha
      simp only [List.length_cons, ih r (by omega)]
      omega

/-- C5: the path-glob matcher succeeds exactly when `filepath.Match`
accepts some suffix subpath of the path obtained by repeatedly stripping
the leading segment through the first separator; on the spec's examples
for pattern ".kamal/*", the three nested forms match and ".kamal" and
"other/.kamalx/secrets" do not. -/
theorem C5_suffix_subpath_glob :
    (∀ pat path, matchPathPattern pat path =
      (strips path).any (fun s => (goMatch pat s).1)) ∧
    matchPathPattern ".kamal/*".toList ".kamal/secrets".toList = true ∧
    matchPathPattern ".kamal/*".toList "app/.kamal/secrets".toList = true ∧
    matchPathPattern ".kamal/*".toList "app/sub/.kamal/secrets".toList = true ∧
    matchPathPattern ".kamal/*".toList ".kamal".toList = false ∧
    matchPathPattern ".kamal/*".toList "other/.kamalx/secrets".toList = false := by
  refine ⟨fun pat path => matchPathPattern_eq_any path.length pat path (le_refl _),
    ?_, ?_, ?_, ?_, ?_⟩ <;>
    simp [matchPathPattern, goMatch, scanChunk, scanStars, chunkSplit, matchChunk,
      parseRanges, getEsc, starLoop, checkWF, afterSep, strContains, startsWith]

/-- C10: `matchPathPattern` is a total function making one Match attempt
per suffix subpath: each strip strictly shortens the path, there are
exactly `count '/' + 1` suffix subpaths (one per segment), and the
matcher is the disjunction of one Match call on each of them. -/
theorem C10_matchPathPattern_total :
    (∀ l r, afterSep l = some r → r.length < l.length) ∧
    (∀ path, (strips path).length = path.count '/' + 1) ∧
    (∀ pat path, matchPathPattern pat path =
      (strips path).any (fun s => (goMatch pat s).1)) :=
  ⟨afterSep_length,
   fun path => strips_length path.length path (le_refl _),
   fun pat path => matchPathPattern_eq_any path.length pat path (le_refl _)⟩

/-- Witness for C10 at a concrete two-segment path. -/
theorem C10_matchPathPattern_total_witness :
    afterSep "a/b".toList = some "b".toList ∧
    ("b".toList : List Char).length < ("a/b".toList : List Char).length :=
  ⟨by decide, C10_matchPathPattern_total.1 _ _ (by decide)⟩

/-- On any path, `filepath.Match` reports ErrBadPattern only with
`matched = false` (so a pattern whose match attempt errors never
matches): every error site in Match/matchChunk returns false. -/
theorem goMatch_ok_no_err : ∀ L pat name, pat.length ≤ L →
    (goMatch pat name).1 = true → (goMatch pat name).2 = false := by
  intro L
  induction L with
  | zero =>
    intro pat name hL
    have hp : pat = [] := List.length_eq_zero.mp (Nat.le_zero.mp hL)
    subst hp
    rw [goMatch.eq_def]
    simp
  | succ L ih =>
    intro pat name hL
    cases pat with
    | nil => rw [goMatch.eq_def]; simp
    | cons c cs =>
      rw [goMatch.eq_def]
      simp only
      rcases hs : scanChunk (c :: cs) with ⟨star, chunk, rest⟩
      have hrest := scanChunk_cons_length c cs star chunk rest hs
      simp only [List.length_cons] at hL hrest
      split
      · simp
      · split
        · simp
        · rename_i t ok hmc
          split
          · exact ih rest t (by omega)
          · split
            · split
              · rename_i t2 hsl
                exact ih rest t2 (by omega)
              · simp
              · simp
            · simp

/-- `matchChunk` on the malformed chunk `"["` always reports
ErrBadPattern. -/
theorem matchChunk_lbracket : ∀ n, matchChunk ['['] n false = .error () := by
  intro n
  rw [matchChunk.eq_def]
  simp only
  split
  · split
    · rfl
    · rename_i m chunk3 hp
      rw [parseRanges.eq_def] at hp
      simp [getEsc] at hp
  · rename_i hfalse
    exact absurd (by decide) hfalse

/-- `filepath.Match` on the malformed pattern `"["`: no match, error. -/
theorem goMatch_lbracket : ∀ n, goMatch ['['] n = (false, true) := by
  intro n
  rw [goMatch.eq_def]
  simp [scanChunk, scanStars, chunkSplit, matchChunk_lbracket n]

/-- The scanner's path matcher never accepts under the malformed
pattern `"["`. -/
theorem matchPathPattern_lbracket : ∀ path, matchPathPattern ['['] path = false := by
  intro path
  rw [matchPathPattern_eq_any path.length ['['] path (le_refl _)]
  simp [goMatch_lbracket]

/-- C7: classification is total (all functions of this model are total),
a Match success never coexists with ErrBadPattern — so a pattern whose
match attempt errors contributes no match — and the malformed glob "["
matches no path: prepending it to ExcludePaths or IncludePaths leaves
every classification unchanged (it neither excludes nor includes any
path). -/
theorem C7_malformed_never_matches :
    (∀ pat name, (goMatch pat name).1 = true → (goMatch pat name).2 = false) ∧
    (∀ path, matchPathPattern "[".toList path = false) ∧
    (∀ cfg p,
      isSecretFile ⟨⟨cfg.Exclude.Names, cfg.Exclude.Extensions,
          "[".toList :: cfg.Exclude.Paths⟩, cfg.Include⟩ p = isSecretFile cfg p) ∧
    (∀ cfg p,
      isSecretFile ⟨cfg.Exclude, ⟨cfg.Include.Names, cfg.Include.Extensions,
          "[".toList :: cfg.Include.Paths⟩⟩ p = isSecretFile cfg p) := by
  refine ⟨fun pat name => goMatch_ok_no_err pat.length pat name (le_refl _),
    fun path => matchPathPattern_lbracket path, ?_, ?_⟩
  · intro cfg p
    simp [isSecretFile, List.any_cons, matchPathPattern_lbracket]
  · intro cfg p
    simp [isSecretFile, List.any_cons, matchPathPattern_lbracket]

/-- Witness for C7 at a concrete matching pattern/path pair. -/
theorem C7_malformed_never_matches_witness :
    (goMatch "a".toList "a".toList).1 = true ∧
    (goMatch "a".toList "a".toList).2 = false :=
  ⟨by simp [goMatch, scanChunk, scanStars, chunkSplit, matchChunk],
   C7_malformed_never_matches.1 _ _
     (by simp [goMatch, scanChunk, scanStars, chunkSplit, matchChunk])⟩

/-- `filepath.Ext` scans only the last segment: no dot there means no
extension. -/
theorem extRevAux_no_dot : ∀ l acc,
    ('.' ∉ l.takeWhile (fun c => !(c == '/'))) → extRevAux l acc = [] := by
  intro l
  induction l with
  | nil => intro acc _; simp [extRevAux]
  | cons c cs ih =>
    intro acc h
    by_cases hc : c == '/'
    · simp [extRevAux, hc]
    · rw [List.takeWhile_cons] at h
      simp only [hc, Bool.not_false, if_pos] at h
      simp only [List.mem_cons, not_or] at h
      have hcd : ¬(c == '.') = true := by
        simp only [beq_iff_eq]
        exact fun hh => h.1 hh.symm
      simp only [extRevAux, hc, Bool.false_eq_true, if_neg, not_false_iff, hcd]
      exact ih (c :: acc) h.2

/-- EqualFold with the empty string holds only for the empty string. -/
theorem equalFold_nil : ∀ pat, pat ≠ [] → equalFold [] pat = false := by
  intro pat hne
  cases pat with
  | nil => exact absurd rfl hne
  | cons d ds => simp [equalFold]

/-- C8 (amended): a file whose final path segment contains no dot gets
an empty `ext`, and a nonempty extension pattern never matches it
(EqualFold with "" holds only for ""), so when neither extension list
contains the empty string the extension rules can neither exclude nor
include such a file — classification is as if both extension lists were
empty.  (An empty-string extension pattern, however, does match it: see
the counterexample.) -/
theorem C8_extensionless :
    (∀ p, ('.' ∉ p.reverse.takeWhile (fun c => !(c == '/'))) → filepathExt p = []) ∧
    (∀ pat, pat ≠ [] → equalFold [] pat = false) ∧
    (∀ cfg p, filepathExt p = [] →
      [] ∉ cfg.Exclude.Extensions → [] ∉ cfg.Include.Extensions →
      isSecretFile cfg p =
        isSecretFile ⟨⟨cfg.Exclude.Names, [], cfg.Exclude.Paths⟩,
          ⟨cfg.Include.Names, [], cfg.Include.Paths⟩⟩ p) := by
  refine ⟨fun p h => extRevAux_no_dot p.reverse [] h, equalFold_nil, ?_⟩
  intro cfg p hext hne hni
  have hex : cfg.Exclude.Extensions.any (fun pat => equalFold (filepathExt p) pat)
      = false := by
    rw [hext, List.any_eq_false]
    intro pat hpat
    have hpne : pat ≠ [] := fun hh => hne (hh ▸ hpat)
    simp [equalFold_nil pat hpne]
  have hin : cfg.Include.Extensions.any (fun pat => equalFold (filepathExt p) pat)
      = false := by
    rw [hext, List.any_eq_false]
    intro pat hpat
    have hpne : pat ≠ [] := fun hh => hni (hh ▸ hpat)
    simp [equalFold_nil pat hpne]
  simp [isSecretFile, hex, hin]

/-- Counterexample to C8 as stated: the empty-string extension pattern
does match the extensionless file "README" (EqualFold("","") holds), so
with IncludeExtensions = [""] the file is classified SECRET by an
extension rule. -/
theorem C8_extensionless_counterexample :
    filepathExt "README".toList = [] ∧
    isSecretFile ⟨⟨[], [], []⟩, ⟨[], [[]], []⟩⟩ "README".toList = true := by
  constructor <;> decide

/-- Witness for C8 (amended) on the extensionless file "README". -/
theorem C8_extensionless_witness :
    ('.' ∉ ("README".toList).reverse.takeWhile (fun c => !(c == '/')) ∧
      filepathExt "README".toList = []) ∧
    isSecretFile ⟨⟨[], [".pem".toList], []⟩, ⟨[], [".key".toList], []⟩⟩
        "README".toList =
      isSecretFile ⟨⟨[], [], []⟩, ⟨[], [], []⟩⟩ "README".toList :=
  ⟨⟨by decide, C8_extensionless.1 _ (by decide)⟩,
   C8_extensionless.2.2 ⟨⟨[], [".pem".toList], []⟩, ⟨[], [".key".toList], []⟩⟩ _
     (by decide) (by decide) (by decide)⟩

/-- Case folding does not produce or consume a separator. -/
theorem lowerChar_beq_slash : ∀ c, (lowerChar c == '/') = (c == '/') := by
  intro c
  unfold lowerChar
  split <;> rfl

/-- Case folding does not produce or consume a dot. -/
theorem lowerChar_beq_dot : ∀ c, (lowerChar c == '.') = (c == '.') := by
  intro c
  unfold lowerChar
  split <;> rfl

/-- Case folding respects the separator tests used by `filepath.Base`. -/
theorem comp_lower_slash :
    ((fun c => c == '/') ∘ lowerChar) = (fun c => c == '/') := by
  funext c
  simp [Function.comp, lowerChar_beq_slash]

theorem comp_lower_not_slash :
    ((fun c => !(c == '/')) ∘ lowerChar) = (fun c => !(c == '/')) := by
  funext c
  simp [Function.comp, lowerChar_beq_slash]

/-- `filepath.Base` commutes with case folding. -/
theorem base_toLower : ∀ p,
    filepathBase (toLowerStr p) = toLowerStr (filepathBase p) := by
  intro p
  by_cases hp : p = []
  · subst hp; decide
  · simp only [filepathBase, toLowerStr]
    rw [if_neg (fun hh => hp (by simpa [List.map_eq_nil_iff] using hh)), if_neg hp]
    have hdrop : (p.map lowerChar).reverse.dropWhile (fun c => c == '/')
        = (p.reverse.dropWhile (fun c => c == '/')).map lowerChar := by
      rw [← List.map_reverse, List.dropWhile_map, comp_lower_slash]
    rw [hdrop]
    by_cases hq : p.reverse.dropWhile (fun c => c == '/') = []
    · rw [hq]
      decide
    · rw [if_neg (by simpa [List.reverse_eq_nil_iff, List.map_eq_nil_iff] using hq),
        if_neg (by simpa [List.reverse_eq_nil_iff] using hq)]
      simp only [List.reverse_reverse]
      rw [List.takeWhile_map, comp_lower_not_slash, List.map_reverse]

/-- The `filepath.Ext` scan commutes with case folding. -/
theorem extRevAux_toLower : ∀ l acc,
    extRevAux (l.map lowerChar) (acc.map lowerChar)
      = (extRevAux l acc).map lowerChar := by
  intro l
  induction l with
  | nil => intro acc; simp [extRevAux]
  | cons c cs ih =>
    intro acc
    simp only [List.map_cons, extRevAux, lowerChar_beq_slash, lowerChar_beq_dot]
    by_cases h1 : c == '/'
    · simp [h1]
    · simp only [h1, Bool.false_eq_true, if_neg, not_false_iff]
      by_cases h2 : c == '.'
      · simp [h2]
      · simp only [h2, Bool.false_eq_true, if_neg, not_false_iff]
        exact ih (c :: acc)

/-- `filepath.Ext` commutes with case folding. -/
theorem ext_toLower : ∀ p,
    filepathExt (toLowerStr p) = toLowerStr (filepathExt p) := by
  intro p
  simp only [filepathExt, toLowerStr]
  rw [← List.map_reverse]
  exact extRevAux_toLower p.reverse []

theorem toLowerStr_cons : ∀ c s,
    toLowerStr (c :: s) = lowerChar c :: toLowerStr s := by
  intro c s
  simp [toLowerStr]

/-- `strings.EqualFold` is equality of the case-folded strings. -/
theorem equalFold_eq : ∀ x y,
    equalFold x y = decide (toLowerStr x = toLowerStr y) := by
  intro x
  induction x with
  | nil => intro y; cases y <;> simp [equalFold, toLowerStr]
  | cons c s ih =>
    intro y
    cases y with
    | nil => simp [equalFold, toLowerStr]
    | cons d t =>
      simp only [equalFold, toLowerStr_cons, ih t, List.cons.injEq, Bool.decide_and]
      by_cases hcd : lowerChar c = lowerChar d <;> simp [hcd]

/-- The case-folded view of one rule family: name and extension patterns
are folded, path-glob patterns are kept verbatim (scanner.go folds the
pattern in the Names loop and compares extensions with EqualFold, but
passes Paths patterns to `filepath.Match` unchanged). -/
def foldRuleSet (r : RuleSet) : RuleSet :=
  ⟨r.Names.map toLowerStr, r.Extensions.map toLowerStr, r.Paths⟩

/-- The case-folded view of a whole Config. -/
def foldConfig (cfg : Config) : Config :=
  ⟨foldRuleSet cfg.Exclude, foldRuleSet cfg.Include⟩

/-- An `any` whose predicate only sees the folded pattern is determined
by the folded pattern list. -/
theorem any_fold_congr : ∀ (l1 l2 : List (List Char)) (g : List Char → Bool),
    l1.map toLowerStr = l2.map toLowerStr →
    l1.any (fun pat => g (toLowerStr pat)) = l2.any (fun pat => g (toLowerStr pat)) := by
  intro l1 l2 g hl
  have h1 : l1.any (fun pat => g (toLowerStr pat)) = (l1.map toLowerStr).any g := by
    rw [List.any_map]
    rfl
  have h2 : l2.any (fun pat => g (toLowerStr pat)) = (l2.map toLowerStr).any g := by
    rw [List.any_map]
    rfl
  rw [h1, h2, hl]

/-- Classification depends on the path only through its folded form and
on the rules only through their folded view. -/
theorem isSecretFile_fold_congr : ∀ cfg₁ cfg₂ p q,
    toLowerStr p = toLowerStr q → foldConfig cfg₁ = foldConfig cfg₂ →
    isSecretFile cfg₁ p = isSecretFile cfg₂ q := by
  intro cfg₁ cfg₂ p q hpq hcfg
  simp only [foldConfig, foldRuleSet, Config.mk.injEq, RuleSet.mk.injEq] at hcfg
  obtain ⟨⟨hen, hee, hep⟩, ⟨hin, hie, hip⟩⟩ := hcfg
  have hbase : toLowerStr (filepathBase p) = toLowerStr (filepathBase q) := by
    rw [← base_toLower, ← base_toLower, hpq]
  have hextc : toLowerStr (filepathExt p) = toLowerStr (filepathExt q) := by
    rw [← ext_toLower, ← ext_toLower, hpq]
  have c1 : cfg₁.Exclude.Names.any
        (fun pat => strContains (toLowerStr (filepathBase p)) (toLowerStr pat))
      = cfg₂.Exclude.Names.any
        (fun pat => strContains (toLowerStr (filepathBase q)) (toLowerStr pat)) := by
    rw [hbase]
    exact any_fold_congr _ _ _ hen
  have c4 : cfg₁.Include.Names.any
        (fun pat => strContains (toLowerStr (filepathBase p)) (toLowerStr pat))
      = cfg₂.Include.Names.any
        (fun pat => strContains (toLowerStr (filepathBase q)) (toLowerStr pat)) := by
    rw [hbase]
    exact any_fold_congr _ _ _ hin
  have c2 : cfg₁.Exclude.Extensions.any (fun pat => equalFold (filepathExt p) pat)
      = cfg₂.Exclude.Extensions.any (fun pat => equalFold (filepathExt q) pat) := by
    have e1 : (fun pat => equalFold (filepathExt p) pat)
        = (fun pat => decide (toLowerStr (filepathExt q) = toLowerStr pat)) := by
      funext pat
      rw [equalFold_eq, hextc]
    have e2 : (fun pat => equalFold (filepathExt q) pat)
        = (fun pat => decide (toLowerStr (filepathExt q) = toLowerStr pat)) := by
      funext pat
      rw [equalFold_eq]
    rw [e1, e2]
    exact any_fold_congr _ _ (fun m => decide (toLowerStr (filepathExt q) = m)) hee
  have c5 : cfg₁.Include.Extensions.any (fun pat => equalFold (filepathExt p) pat)
      = cfg₂.Include.Extensions.any (fun pat => equalFold (filepathExt q) pat) := by
    have e1 : (fun pat => equalFold (filepathExt p) pat)
        = (fun pat => decide (toLowerStr (filepathExt q) = toLowerStr pat)) := by
      funext pat
      rw [equalFold_eq, hextc]
    have e2 : (fun pat => equalFold (filepathExt q) pat)
        = (fun pat => decide (toLowerStr (filepathExt q) = toLowerStr pat)) := by
      funext pat
      rw [equalFold_eq]
    rw [e1, e2]
    exact any_fold_congr _ _ (fun m => decide (toLowerStr (filepathExt q) = m)) hie
  have c3 : cfg₁.Exclude.Paths.any (fun pat => matchPathPattern pat (toLowerStr p))
      = cfg₂.Exclude.Paths.any (fun pat => matchPathPattern pat (toLowerStr q)) := by
    rw [hpq, hep]
  have c6 : cfg₁.Include.Paths.any (fun pat => matchPathPattern pat (toLowerStr p))
      = cfg₂.Include.Paths.any (fun pat => matchPathPattern pat (toLowerStr q)) := by
    rw [hpq, hip]
  simp only [isSecretFile]
  rw [c1, c2, c3, c4, c5, c6]

/-- C2 (amended): classification is case-insensitive in the path for all
rule kinds (two paths with the same folded form classify identically),
and case-insensitive in the pattern for name and extension patterns
("ID_RSA", "id_rsa", "Id_Rsa" classify identically under name pattern
"id_rsa" however the pattern is cased); path-glob patterns, however, are
matched case-sensitively as written against the folded path, so a
path-glob pattern is NOT insensitive to its own case (see the
counterexample). -/
theorem C2_case_insensitivity : ∀ cfg₁ cfg₂ p q,
    toLowerStr p = toLowerStr q → foldConfig cfg₁ = foldConfig cfg₂ →
    isSecretFile cfg₁ p = isSecretFile cfg₂ q :=
  isSecretFile_fold_congr

/-- Counterexample to C2 as stated: the include path-glob pattern
".KAMAL/*" (uppercase) matches nothing — the path is folded but the
pattern is not — while ".kamal/*" matches ".kamal/secrets": two patterns
differing only in case classify the same path differently. -/
theorem C2_case_insensitivity_counterexample :
    isSecretFile ⟨⟨[], [], []⟩, ⟨[], [], [".KAMAL/*".toList]⟩⟩
      ".kamal/secrets".toList = false ∧
    isSecretFile ⟨⟨[], [], []⟩, ⟨[], [], [".kamal/*".toList]⟩⟩
      ".kamal/secrets".toList = true := by
  constructor <;>
    simp [isSecretFile, matchPathPattern, goMatch, scanChunk, scanStars,
      chunkSplit, matchChunk, parseRanges, getEsc, starLoop, checkWF, afterSep,
      strContains, startsWith, toLowerStr, lowerChar]

/-- Witness for C2 (amended): "Id_Rsa" under name pattern "ID_RSA" and
"id_rsa" under name pattern "id_rsa" classify identically. -/
theorem C2_case_insensitivity_witness :
    toLowerStr "Id_Rsa".toList = toLowerStr "id_rsa".toList ∧
    foldConfig ⟨⟨[], [], []⟩, ⟨["ID_RSA".toList], [], []⟩⟩
      = foldConfig ⟨⟨[], [], []⟩, ⟨["id_rsa".toList], [], []⟩⟩ ∧
    isSecretFile ⟨⟨[], [], []⟩, ⟨["ID_RSA".toList], [], []⟩⟩ "Id_Rsa".toList
      = isSecretFile ⟨⟨[], [], []⟩, ⟨["id_rsa".toList], [], []⟩⟩ "id_rsa".toList :=
  ⟨by decide, by decide,
   C2_case_insensitivity _ _ _ _ (by decide) (by decide)⟩
